import Mathlib

/-
Verification of the Tasya directory-scan / rename utility (src/main.rs).

The filesystem is modelled as a tree of entries; a `Path` produced by
enumeration is represented by the entry it denotes (its final component
name and, for directories, their children), which is all the program
ever inspects (`is_dir`, `extension`, file bytes).  Rust `HashSet`s are
modelled as lists used only through membership; the Rust `HashMap` of
per-extension counts is modelled as an association list in first-insertion
order (iteration order of the Rust map is unspecified; every quantity the
program derives from it is order-independent).
-/

namespace Tasya

/-- A filesystem entry: a plain file or a directory with its children
(in directory enumeration order). -/
inductive Entry where
  | file (name : String) : Entry
  | dir (name : String) (children : List Entry) : Entry

/-- Final path component of the entry, as produced by read_dir. -/
def Entry.name : Entry → String
  | .file n => n
  | .dir n _ => n

/-- Model of Rust is_dir on an enumerated path. -/
def Entry.isDir : Entry → Bool
  | .file _ => false
  | .dir _ _ => true

/-- Children of a directory entry (empty for a file). -/
def Entry.children : Entry → List Entry
  | .file _ => []
  | .dir _ cs => cs

mutual
/-- The conditional recursive expansion of one enumerated child
(src/main.rs lines 55-57): children of a directory at positive level,
nothing for a file or at level 0. -/
def expandEntry : Entry → Nat → List Entry
  | Entry.file _, _ => []
  | Entry.dir _ _, 0 => []
  | Entry.dir _ cs, l + 1 => lsRecursive cs l

/-- Model of ls_recursive (src/main.rs lines 51-60): push each child of the
directory; when the child is itself a directory and level > 0, append its
recursive expansion at level - 1 before continuing with the remaining
children.  The first argument is the child list of the directory being
listed. -/
def lsRecursive : List Entry → Nat → List Entry
  | [], _ => []
  | e :: rest, level => e :: (expandEntry e level ++ lsRecursive rest level)
end

/-- Characters after the last dot of a component, when the component
contains a dot at all. -/
def afterLastDot : List Char → Option (List Char)
  | [] => none
  | c :: cs =>
    match afterLastDot cs with
    | some r => some r
    | none => if c == '.' then some cs else none

/-- Model of Rust Path::extension on a final path component: none when the
component has no dot, or when its only dot is the leading character (dot
files such as ".gitignore"); otherwise the characters after the last dot
(possibly empty, as for "x.").  Components are actual directory-entry
names, so "." and ".." do not arise. -/
def rustExtension (cs : List Char) : Option (List Char) :=
  match cs with
  | [] => none
  | c :: rest =>
      if c == '.' && !(rest.contains '.') then none
      else afterLastDot (c :: rest)

/-- ASCII model of Rust str::to_lowercase (every extension the claims touch
is ASCII). -/
def toLowerStr (s : String) : String := String.mk (s.toList.map Char.toLower)

/-- Model of get_extension_str (src/main.rs lines 62-67): the extension
lower-cased, or the empty string when Path::extension is None.  The
to_str().unwrap() UTF-8 check always succeeds in the model, since Lean
strings are valid unicode. -/
def getExtensionStr (name : String) : String :=
  match rustExtension name.toList with
  | some ext => toLowerStr (String.mk ext)
  | none => ""

/-- The filter decision of rename (src/main.rs lines 140-148), read off the
two continue branches: with an empty whitelist a file survives iff its
extension is not blacklisted, otherwise iff its extension is whitelisted. -/
def admits (extension : String) (blacklist whitelist : List String) : Bool :=
  if whitelist.isEmpty then !(blacklist.contains extension)
  else whitelist.contains extension

/-- The complete per-file skip decision of rename (src/main.rs lines
136-148), including the empty-extension skip at line 138. -/
def renameSkips (extension : String) (blacklist whitelist : List String) : Bool :=
  if extension.isEmpty then true
  else if whitelist.isEmpty then blacklist.contains extension
  else !(whitelist.contains extension)

/-- The copy loop of rename (src/main.rs lines 136-156): each surviving file
is copied and paired with the current counter value, and only then is the
counter incremented; skipped files leave the counter untouched.  The branch
structure mirrors the source's continue chain. -/
def renameCopies : List Entry → List String → List String → Nat → List (Entry × Nat)
  | [], _, _, _ => []
  | f :: rest, blacklist, whitelist, number =>
    let extension := getExtensionStr f.name
    if extension.isEmpty then renameCopies rest blacklist whitelist number
    else if whitelist.isEmpty then
      if blacklist.contains extension then renameCopies rest blacklist whitelist number
      else (f, number) :: renameCopies rest blacklist whitelist (number + 1)
    else
      if !(whitelist.contains extension) then renameCopies rest blacklist whitelist number
      else (f, number) :: renameCopies rest blacklist whitelist (number + 1)

/-- The file list rename iterates over (src/main.rs lines 131-135): the
recursive enumeration with directories filtered out. -/
def renameFiles (inputChildren : List Entry) (level : Nat) : List Entry :=
  (lsRecursive inputChildren level).filter (fun path => !path.isDir)

/-- The copies performed by one rename run, as source-entry / assigned-number
pairs in copy order. -/
def rename (inputChildren : List Entry) (level : Nat)
    (blacklist whitelist : List String) (startNumber : Nat) : List (Entry × Nat) :=
  renameCopies (renameFiles inputChildren level) blacklist whitelist startNumber

/-- The selection predicate of analyze (src/main.rs line 91): not a
directory, and Path::extension is not None. -/
def analyzeSelects (path : Entry) : Bool :=
  !path.isDir && (rustExtension path.name.toList).isSome

/-- One step of the fold building file_types (src/main.rs lines 96-99):
bump the count stored under the extension, inserting it at count 1 when
absent. -/
def addCount (acc : List (String × Nat)) (extension : String) : List (String × Nat) :=
  match acc with
  | [] => [(extension, 1)]
  | (k, v) :: rest =>
      if k = extension then (k, v + 1) :: rest else (k, v) :: addCount rest extension

/-- The file_types map of analyze (src/main.rs lines 93-100), as an
association list keyed by extension. -/
def fileTypes (files : List Entry) : List (String × Nat) :=
  files.foldl (fun accumulator file => addCount accumulator (getExtensionStr file.name)) []

/-- Model of filter_sum (src/main.rs lines 69-80): the sum of the values of
the map entries whose key belongs to the set. -/
def filterSum (entries : List (String × Nat)) (set : List String) : Nat :=
  ((entries.filter (fun entry => set.contains entry.1)).map (fun entry => entry.2)).sum

/-- A single-quote character, used in the breakdown lines of analyze. -/
def sq : String := String.singleton (Char.ofNat 39)

/-- The first printed line of analyze (src/main.rs lines 101-106). -/
def analyzeSummary (fileCount : Nat) (ft : List (String × Nat))
    (blacklist whitelist : List String) : String :=
  "Detected " ++ toString fileCount ++ " file(s), " ++
    (if whitelist.isEmpty then toString (filterSum ft blacklist) ++ " in blacklist"
     else toString (filterSum ft whitelist) ++ " in whitelist")

/-- The printed lines of analyze after enumeration (src/main.rs lines
101-112): the summary line, then, when any file was counted, the
File type(s) header and one breakdown line per distinct extension. -/
def analyzeLines (fileCount : Nat) (ft : List (String × Nat))
    (blacklist whitelist : List String) : List String :=
  analyzeSummary fileCount ft blacklist whitelist ::
    (if fileCount > 0 then
      "File type(s):" ::
        ft.map (fun t => "\t" ++ toString t.2 ++ " " ++ sq ++ t.1 ++ sq ++ " file(s)")
     else [])

/-- The complete printed output of analyze (src/main.rs lines 82-113), one
string per line. -/
def analyze (children : List Entry) (level : Nat)
    (blacklist whitelist : List String) : List String :=
  let paths := lsRecursive children level
  let files := paths.filter analyzeSelects
  analyzeLines files.length (fileTypes files) blacklist whitelist

/-- Claim-level reading of "the substring after the last dot": drop
everything up to and including the last dot. -/
def afterLastDotSpec (cs : List Char) : List Char :=
  (cs.reverse.takeWhile (fun c => c != '.')).reverse

theorem afterLastDot_eq_none {cs : List Char} (h : '.' ∉ cs) : afterLastDot cs = none := by
  induction cs with
  | nil => rfl
  | cons c rest ih =>
      simp only [List.mem_cons, not_or] at h
      simp [afterLastDot, ih h.2, h.1, Ne.symm h.1]

theorem takeWhile_append_of_forall {p : Char → Bool} {l : List Char} (c : Char)
    (l' : List Char) (hall : ∀ x ∈ l, p x = true) (hc : p c = false) :
    (l ++ c :: l').takeWhile p = l := by
  induction l with
  | nil => simp [List.takeWhile, hc]
  | cons a rest ih =>
      have ha : p a = true := hall a (by simp)
      simp only [List.cons_append, List.takeWhile_cons, ha, if_true]
      rw [ih (fun x hx => hall x (by simp [hx]))]

theorem takeWhile_append_of_mem_false {p : Char → Bool} {l : List Char} (l' : List Char)
    (h : ∃ x ∈ l, p x = false) : (l ++ l').takeWhile p = l.takeWhile p := by
  induction l with
  | nil =>
      obtain ⟨x, hx, _⟩ := h
      cases hx
  | cons a rest ih =>
      by_cases ha : p a = true
      · have hr : ∃ x ∈ rest, p x = false := by
          obtain ⟨x, hx, hpx⟩ := h
          rcases List.mem_cons.mp hx with rfl | hx'
          · rw [ha] at hpx; cases hpx
          · exact ⟨x, hx', hpx⟩
        simp [List.takeWhile_cons, ha, ih hr]
      · simp only [Bool.not_eq_true] at ha
        simp [List.takeWhile_cons, ha]

theorem afterLastDot_eq_some {cs : List Char} (h : '.' ∈ cs) :
    afterLastDot cs = some (afterLastDotSpec cs) := by
  induction cs with
  | nil => cases h
  | cons c rest ih =>
      by_cases hrest : '.' ∈ rest
      · rw [show afterLastDot (c :: rest)
              = match afterLastDot rest with
                | some r => some r
                | none => if c == '.' then some rest else none from rfl,
            ih hrest]
        have hspec : afterLastDotSpec (c :: rest) = afterLastDotSpec rest := by
          unfold afterLastDotSpec
          rw [List.reverse_cons,
              takeWhile_append_of_mem_false [c]
                ⟨'.', List.mem_reverse.mpr hrest, by simp⟩]
        rw [hspec]
      · have hc : c = '.' := by
          rcases List.mem_cons.mp h with h1 | h1
          · exact h1.symm
          · exact absurd h1 hrest
        subst hc
        rw [show afterLastDot ('.' :: rest)
              = match afterLastDot rest with
                | some r => some r
                | none => if '.' == '.' then some rest else none from rfl,
            afterLastDot_eq_none hrest]
        have hspec : afterLastDotSpec ('.' :: rest) = rest := by
          unfold afterLastDotSpec
          rw [List.reverse_cons,
              takeWhile_append_of_forall '.' []
                (fun x hx => by
                  have hxne : x ≠ '.' := fun hx' => hrest (by
                    subst hx'
                    exact List.mem_reverse.mp hx)
                  simpa using hxne)
                (by simp)]
          exact List.reverse_reverse rest
        simp [hspec]

theorem contains_eq_decide_mem {α : Type} [BEq α] [LawfulBEq α] (l : List α) (a : α) :
    l.contains a = decide (a ∈ l) := by
  rw [Bool.eq_iff_iff]
  simp only [decide_eq_true_eq]
  exact List.elem_iff

theorem rustExtension_eq_none {cs : List Char} (h : '.' ∉ cs.tail) :
    rustExtension cs = none := by
  cases cs with
  | nil => rfl
  | cons c rest =>
      simp only [List.tail_cons] at h
      by_cases hc : c = '.'
      · subst hc
        have hcon : rest.contains '.' = false := by
          rw [contains_eq_decide_mem]
          simpa using h
        simp [rustExtension, hcon, h]
      · have hbeq : (c == '.') = false := by simpa using hc
        have hmem : '.' ∉ c :: rest := by
          intro hm
          rcases List.mem_cons.mp hm with h1 | h1
          · exact hc h1.symm
          · exact h h1
        simp [rustExtension, hbeq, afterLastDot_eq_none hmem]

theorem rustExtension_eq_some {cs : List Char} (h : '.' ∈ cs.tail) :
    rustExtension cs = some (afterLastDotSpec cs) := by
  cases cs with
  | nil => cases h
  | cons c rest =>
      simp only [List.tail_cons] at h
      have hcon : rest.contains '.' = true := by
        rw [contains_eq_decide_mem]
        simpa using h
      have hfull : '.' ∈ c :: rest := List.mem_cons.mpr (Or.inr h)
      simp [rustExtension, hcon, afterLastDot_eq_some hfull, h]

theorem rustExtension_isSome (cs : List Char) :
    (rustExtension cs).isSome = cs.tail.contains '.' := by
  by_cases h : '.' ∈ cs.tail
  · rw [rustExtension_eq_some h, contains_eq_decide_mem]
    simpa using h
  · rw [rustExtension_eq_none h, contains_eq_decide_mem]
    simpa using h

/-- C4: the Extension Classifier returns the lower-cased substring after
the last dot of the final path component whenever the component has an
extension component (a dot after its first character), and the empty string
when it has none; in particular it maps "A.JPG" to "jpg" and "noext"
to "". -/
theorem extension_classifier_spec :
    (∀ name : String, '.' ∈ name.toList.tail →
        getExtensionStr name = toLowerStr (String.mk (afterLastDotSpec name.toList)))
  ∧ (∀ name : String, '.' ∉ name.toList.tail → getExtensionStr name = "")
  ∧ getExtensionStr "A.JPG" = "jpg"
  ∧ getExtensionStr "noext" = "" := by
  refine ⟨?_, ?_, by decide, by decide⟩
  · intro name h
    unfold getExtensionStr
    rw [rustExtension_eq_some h]
  · intro name h
    unfold getExtensionStr
    rw [rustExtension_eq_none h]

/-- Witness for C4 at the names "A.JPG" and ".gitignore". -/
theorem extension_classifier_spec_witness :
    getExtensionStr "A.JPG" = toLowerStr (String.mk (afterLastDotSpec "A.JPG".toList))
  ∧ getExtensionStr ".gitignore" = "" :=
  ⟨extension_classifier_spec.1 "A.JPG" (by decide),
   extension_classifier_spec.2.1 ".gitignore" (by decide)⟩

/-- C1: the Filter Policy realised by the rename skip logic admits an
extension against a non-empty whitelist iff the extension is whitelisted,
and against an empty whitelist iff it is not blacklisted; renameSkips, the
complete per-file decision of rename, skips exactly the files whose
extension is empty or not admitted. -/
theorem filter_policy_admits (e : String) (blacklist whitelist : List String) :
    (whitelist ≠ [] → (admits e blacklist whitelist = true ↔ e ∈ whitelist))
  ∧ (whitelist = [] → (admits e blacklist whitelist = true ↔ e ∉ blacklist))
  ∧ renameSkips e blacklist whitelist = (e.isEmpty || !(admits e blacklist whitelist)) := by
  refine ⟨?_, ?_, ?_⟩
  · intro hW
    have hne : whitelist.isEmpty = false := List.isEmpty_eq_false.mpr hW
    simp [admits, hne, contains_eq_decide_mem]
  · intro hW
    subst hW
    simp [admits, contains_eq_decide_mem]
  · by_cases hE : e.isEmpty = true
    · simp [renameSkips, hE]
    · simp only [Bool.not_eq_true] at hE
      by_cases hW : whitelist.isEmpty = true
      · simp [renameSkips, admits, hE, hW]
      · simp only [Bool.not_eq_true] at hW
        simp [renameSkips, admits, hE, hW]

/-- Witness for C1: jpg against whitelist jpg, and png against
blacklist png with an empty whitelist. -/
theorem filter_policy_admits_witness :
    (admits "jpg" ["png"] ["jpg"] = true ↔ "jpg" ∈ ["jpg"])
  ∧ (admits "png" ["png"] [] = true ↔ "png" ∉ ["png"]) :=
  ⟨(filter_policy_admits "jpg" ["png"] ["jpg"]).1 (by decide),
   (filter_policy_admits "png" ["png"] []).2.1 rfl⟩

/-- C10: a dot file, a final component beginning with a dot and containing
no other dot, gets the empty extension string, is not selected by analyze,
and is skipped by the rename copy loop without a copy and without consuming
a number. -/
theorem dotfile_no_extension (rest : List Char) (h : '.' ∉ rest) :
    getExtensionStr (String.mk ('.' :: rest)) = ""
  ∧ analyzeSelects (Entry.file (String.mk ('.' :: rest))) = false
  ∧ ∀ (others : List Entry) (blacklist whitelist : List String) (number : Nat),
      renameCopies (Entry.file (String.mk ('.' :: rest)) :: others) blacklist whitelist number
        = renameCopies others blacklist whitelist number := by
  have htail : '.' ∉ (String.mk ('.' :: rest)).toList.tail := by
    simpa using h
  have hext : getExtensionStr (String.mk ('.' :: rest)) = "" := by
    unfold getExtensionStr
    rw [rustExtension_eq_none htail]
  refine ⟨hext, ?_, ?_⟩
  · have hre : rustExtension ('.' :: rest) = none :=
      rustExtension_eq_none (by simpa using h)
    simp [analyzeSelects, Entry.isDir, Entry.name, hre]
  · intro others blacklist whitelist number
    simp [renameCopies, Entry.name, hext, String.isEmpty]

/-- Witness for C10 at the name ".gitignore". -/
theorem dotfile_no_extension_witness :
    getExtensionStr ".gitignore" = ""
  ∧ analyzeSelects (Entry.file ".gitignore") = false
  ∧ renameCopies [Entry.file ".gitignore", Entry.file "a.jpg"] [] [] 1
      = renameCopies [Entry.file "a.jpg"] [] [] 1 := by
  have h := dotfile_no_extension "gitignore".toList (by decide)
  exact ⟨h.1, h.2.1, h.2.2 [Entry.file "a.jpg"] [] [] 1⟩

/-- C3 is refuted: analyze counts a file whose final component ends in a
dot, such as "x.", even though its extension string is empty, because the
code compares Path::extension against None instead of testing the
extension string for emptiness. -/
theorem analyze_selection_counterexample :
    analyzeSelects (Entry.file "x.") = true
  ∧ getExtensionStr "x." = ""
  ∧ ((lsRecursive [Entry.file "x."] 1).filter analyzeSelects).length = 1 := by
  refine ⟨by decide, by decide, by decide⟩

/-- C3 amended: the entries counted by analyze are exactly the enumerated
entries that are not directories and whose final component has a dot after
its first character, i.e. whose Path::extension is Some; this admits
trailing-dot names such as "x." whose extension string is empty, and still
excludes directories and extensionless names from file_count and from the
per-extension breakdown, both of which analyze computes from this filtered
list. -/
theorem analyze_selection_amended (children : List Entry) (level : Nat) :
    (lsRecursive children level).filter analyzeSelects
      = (lsRecursive children level).filter
          (fun p => !p.isDir && p.name.toList.tail.contains '.') := by
  apply List.filter_congr
  intro p _
  simp [analyzeSelects, rustExtension_isSome]

theorem renameCopies_cons (f : Entry) (rest : List Entry) (blacklist whitelist : List String)
    (number : Nat) :
    renameCopies (f :: rest) blacklist whitelist number =
      if renameSkips (getExtensionStr f.name) blacklist whitelist
      then renameCopies rest blacklist whitelist number
      else (f, number) :: renameCopies rest blacklist whitelist (number + 1) := by
  simp only [renameCopies, renameSkips]
  by_cases hE : (getExtensionStr f.name).isEmpty = true
  · simp [hE]
  · simp only [Bool.not_eq_true] at hE
    by_cases hW : whitelist.isEmpty = true
    · by_cases hB : blacklist.contains (getExtensionStr f.name) = true
      · simp [hE, hW, hB]
      · simp only [Bool.not_eq_true] at hB
        simp [hE, hW, hB]
    · simp only [Bool.not_eq_true] at hW
      by_cases hC : whitelist.contains (getExtensionStr f.name) = true
      · simp [hE, hW, hC]
      · simp only [Bool.not_eq_true] at hC
        simp [hE, hW, hC]

theorem renameCopies_map_snd (files : List Entry) (blacklist whitelist : List String) :
    ∀ number : Nat,
      (renameCopies files blacklist whitelist number).map Prod.snd
        = List.range' number (renameCopies files blacklist whitelist number).length := by
  induction files with
  | nil => intro number; rfl
  | cons f rest ih =>
      intro number
      rw [renameCopies_cons]
      by_cases hs : renameSkips (getExtensionStr f.name) blacklist whitelist = true
      · simp only [hs, if_true]
        exact ih number
      · simp only [Bool.not_eq_true] at hs
        simp only [hs, Bool.false_eq_true, if_false, List.map_cons, List.length_cons,
          List.range'_succ, ih (number + 1)]

theorem renameCopies_map_fst (files : List Entry) (blacklist whitelist : List String) :
    ∀ number : Nat,
      (renameCopies files blacklist whitelist number).map Prod.fst
        = files.filter (fun f => !(renameSkips (getExtensionStr f.name) blacklist whitelist)) := by
  induction files with
  | nil => intro number; rfl
  | cons f rest ih =>
      intro number
      rw [renameCopies_cons]
      by_cases hs : renameSkips (getExtensionStr f.name) blacklist whitelist = true
      · simp [hs, List.filter_cons, ih number]
      · simp only [Bool.not_eq_true] at hs
        simp [hs, List.filter_cons, ih (number + 1)]

/-- C2: the files copied by rename are exactly the enumerated
non-directory files that survive the skip logic, in enumeration order, and
they receive the consecutive numbers startNumber, startNumber + 1, and so
on with no gaps; skipped files produce no copy and leave the counter
untouched, so only copied files consume a number. -/
theorem rename_numbering (children : List Entry) (level : Nat)
    (blacklist whitelist : List String) (startNumber : Nat) :
    (rename children level blacklist whitelist startNumber).map Prod.snd
      = List.range' startNumber (rename children level blacklist whitelist startNumber).length
  ∧ (rename children level blacklist whitelist startNumber).map Prod.fst
      = (renameFiles children level).filter
          (fun f => !(renameSkips (getExtensionStr f.name) blacklist whitelist)) :=
  ⟨renameCopies_map_snd (renameFiles children level) blacklist whitelist startNumber,
   renameCopies_map_fst (renameFiles children level) blacklist whitelist startNumber⟩

/-- Claim-level matched count: the sum of the counts of the file_types
entries whose extension key belongs to the given set, phrased with list
membership rather than the code's contains. -/
def matchedSum (ft : List (String × Nat)) (set : List String) : Nat :=
  ((ft.filter (fun kv => decide (kv.1 ∈ set))).map Prod.snd).sum

theorem filterSum_eq_matchedSum (ft : List (String × Nat)) (set : List String) :
    filterSum ft set = matchedSum ft set := by
  unfold filterSum matchedSum
  have hfil : ft.filter (fun entry => set.contains entry.1)
      = ft.filter (fun kv => decide (kv.1 ∈ set)) :=
    List.filter_congr (fun kv _ => contains_eq_decide_mem set kv.1)
  rw [hfil]

/-- C5: the first line printed by analyze is exactly
Detected {file_count} file(s), {matched} in whitelist when the whitelist is
non-empty and the blacklist variant when it is empty, where matched is the
sum of the file_types counts whose extension key lies in the respective
set. -/
theorem analyze_matched_summary (children : List Entry) (level : Nat)
    (blacklist whitelist : List String) :
    (whitelist ≠ [] →
      (analyze children level blacklist whitelist).head?
        = some ("Detected "
            ++ toString ((lsRecursive children level).filter analyzeSelects).length
            ++ " file(s), "
            ++ toString (matchedSum
                  (fileTypes ((lsRecursive children level).filter analyzeSelects)) whitelist)
            ++ " in whitelist"))
  ∧ (whitelist = [] →
      (analyze children level blacklist whitelist).head?
        = some ("Detected "
            ++ toString ((lsRecursive children level).filter analyzeSelects).length
            ++ " file(s), "
            ++ toString (matchedSum
                  (fileTypes ((lsRecursive children level).filter analyzeSelects)) blacklist)
            ++ " in blacklist")) := by
  constructor
  · intro hW
    have hne : whitelist.isEmpty = false := List.isEmpty_eq_false.mpr hW
    simp [analyze, analyzeLines, analyzeSummary, hne, filterSum_eq_matchedSum, String.append_assoc]
  · intro hW
    subst hW
    simp [analyze, analyzeLines, analyzeSummary, filterSum_eq_matchedSum, String.append_assoc]

/-- Witness for C5 on three files with whitelist jpg, respectively
blacklist png. -/
theorem analyze_matched_summary_witness :
    (analyze [Entry.file "a.jpg", Entry.file "b.png", Entry.file "c.jpg"] 1 [] ["jpg"]).head?
      = some "Detected 3 file(s), 2 in whitelist"
  ∧ (analyze [Entry.file "a.jpg", Entry.file "b.png", Entry.file "c.jpg"] 1 ["png"] []).head?
      = some "Detected 3 file(s), 1 in blacklist" := by
  have h1 := (analyze_matched_summary
    [Entry.file "a.jpg", Entry.file "b.png", Entry.file "c.jpg"] 1 [] ["jpg"]).1 (by decide)
  have h2 := (analyze_matched_summary
    [Entry.file "a.jpg", Entry.file "b.png", Entry.file "c.jpg"] 1 ["png"] []).2 rfl
  constructor
  · rw [h1]; rfl
  · rw [h2]; rfl

theorem renameSkips_blacklist_irrelevant {whitelist : List String}
    (hW : whitelist.isEmpty = false) (e : String) (b1 b2 : List String) :
    renameSkips e b1 whitelist = renameSkips e b2 whitelist := by
  simp [renameSkips, hW]

theorem renameCopies_blacklist_irrelevant (files : List Entry) {whitelist : List String}
    (hW : whitelist.isEmpty = false) (b1 b2 : List String) :
    ∀ number : Nat,
      renameCopies files b1 whitelist number = renameCopies files b2 whitelist number := by
  induction files with
  | nil => intro number; rfl
  | cons f rest ih =>
      intro number
      rw [renameCopies_cons, renameCopies_cons,
          renameSkips_blacklist_irrelevant hW (getExtensionStr f.name) b1 b2]
      by_cases hs : renameSkips (getExtensionStr f.name) b2 whitelist = true
      · simp [hs, ih number]
      · simp only [Bool.not_eq_true] at hs
        simp [hs, ih (number + 1)]

/-- C8: with a non-empty whitelist the blacklist is ignored entirely: two
runs differing only in their blacklist produce the same full analyze output
and the same rename copies with the same assigned numbers. -/
theorem whitelist_shadows_blacklist (children : List Entry) (level : Nat)
    (b1 b2 whitelist : List String) (startNumber : Nat) (hW : whitelist ≠ []) :
    analyze children level b1 whitelist = analyze children level b2 whitelist
  ∧ rename children level b1 whitelist startNumber
      = rename children level b2 whitelist startNumber := by
  have hne : whitelist.isEmpty = false := List.isEmpty_eq_false.mpr hW
  constructor
  · simp [analyze, analyzeLines, analyzeSummary, hne]
  · exact renameCopies_blacklist_irrelevant (renameFiles children level) hne b1 b2 startNumber

/-- Witness for C8: blacklists png and txt behave identically under
whitelist jpg. -/
theorem whitelist_shadows_blacklist_witness :
    analyze [Entry.file "a.jpg"] 1 ["png"] ["jpg"] = analyze [Entry.file "a.jpg"] 1 ["txt"] ["jpg"]
  ∧ rename [Entry.file "a.jpg"] 1 ["png"] ["jpg"] 1
      = rename [Entry.file "a.jpg"] 1 ["txt"] ["jpg"] 1 :=
  whitelist_shadows_blacklist [Entry.file "a.jpg"] 1 ["png"] ["txt"] ["jpg"] 1 (by decide)

mutual
theorem expandEntry_sublist_succ : ∀ (e : Entry) (l : Nat),
    List.Sublist (expandEntry e l) (expandEntry e (l + 1))
  | Entry.file _, _ => by simp [expandEntry]
  | Entry.dir _ cs, 0 => by
      simp only [expandEntry]
      exact List.nil_sublist _
  | Entry.dir _ cs, l + 1 => by
      simpa only [expandEntry] using lsRecursive_sublist_succ cs l

theorem lsRecursive_sublist_succ : ∀ (es : List Entry) (l : Nat),
    List.Sublist (lsRecursive es l) (lsRecursive es (l + 1))
  | [], _ => by simp [lsRecursive]
  | e :: rest, level => by
      simpa only [lsRecursive] using List.Sublist.cons₂ e
        ((expandEntry_sublist_succ e level).append (lsRecursive_sublist_succ rest level))
end

/-- C6: deepening the enumeration by one level only inserts entries: for
every level of at least 1, the listing at level - 1 occurs as an
order-preserving subsequence of the listing at level. -/
theorem enumeration_depth_monotone (children : List Entry) (level : Nat)
    (h : 1 ≤ level) :
    List.Sublist (lsRecursive children (level - 1)) (lsRecursive children level) := by
  obtain ⟨l, rfl⟩ : ∃ l, level = l + 1 := ⟨level - 1, by omega⟩
  simpa using lsRecursive_sublist_succ children l

/-- Witness for C6 on a one-directory tree at levels 0 and 1. -/
theorem enumeration_depth_monotone_witness :
    List.Sublist (lsRecursive [Entry.dir "d" [Entry.file "a.jpg"]] 0)
      (lsRecursive [Entry.dir "d" [Entry.file "a.jpg"]] 1) :=
  enumeration_depth_monotone [Entry.dir "d" [Entry.file "a.jpg"]] 1 (by decide)

/-- One fs::copy into the output directory, modelled on its contents as an
association list from destination file name to copied bytes (represented by
the source entry name); copying over an existing destination overwrites
it. -/
def writeFile (d : List (String × String)) (destination content : String) :
    List (String × String) :=
  match d with
  | [] => [(destination, content)]
  | (k, v) :: rest =>
      if k = destination then (k, content) :: rest
      else (k, v) :: writeFile rest destination content

/-- Perform the copies of a run into a directory state, in order
(src/main.rs lines 149-155).  The render argument stands for the compiled
template applied to the context number. -/
def performCopies (d : List (String × String)) (copies : List (Entry × Nat))
    (render : Nat → String) : List (String × String) :=
  copies.foldl (fun acc c => writeFile acc (render c.2) c.1.name) d

/-- A full rename run together with its output-directory effect
(src/main.rs lines 124-156): an existing output directory is first removed
recursively and recreated, a missing one is created, so the copies always
start from an empty directory. -/
def renameRun (existing : Option (List (String × String))) (inputChildren : List Entry)
    (level : Nat) (blacklist whitelist : List String) (startNumber : Nat)
    (render : Nat → String) : List (String × String) :=
  let emptied : List (String × String) :=
    match existing with
    | some _ => []
    | none => []
  performCopies emptied (rename inputChildren level blacklist whitelist startNumber) render

theorem mem_writeFile {kv : String × String} {d : List (String × String)}
    {destination content : String} (h : kv ∈ writeFile d destination content) :
    kv = (destination, content) ∨ kv ∈ d := by
  induction d with
  | nil =>
      simp only [writeFile, List.mem_singleton] at h
      exact Or.inl h
  | cons p rest ih =>
      by_cases hk : p.1 = destination
      · rw [show writeFile (p :: rest) destination content
              = (p.1, content) :: rest by
            rw [show (p :: rest) = ((p.1, p.2) :: rest) by rfl]
            simp [writeFile, hk]] at h
        rcases List.mem_cons.mp h with h1 | h1
        · exact Or.inl (by rw [h1, hk])
        · exact Or.inr (List.mem_cons.mpr (Or.inr h1))
      · rw [show writeFile (p :: rest) destination content
              = p :: writeFile rest destination content by
            rw [show (p :: rest) = ((p.1, p.2) :: rest) by rfl]
            simp [writeFile, hk]] at h
        rcases List.mem_cons.mp h with h1 | h1
        · exact Or.inr (List.mem_cons.mpr (Or.inl h1))
        · rcases ih h1 with h2 | h2
          · exact Or.inl h2
          · exact Or.inr (List.mem_cons.mpr (Or.inr h2))

theorem mem_performCopies {render : Nat → String} :
    ∀ (copies : List (Entry × Nat)) (d : List (String × String)) (kv : String × String),
      kv ∈ performCopies d copies render →
      kv ∈ d ∨ ∃ c ∈ copies, kv = (render c.2, c.1.name) := by
  intro copies
  induction copies with
  | nil =>
      intro d kv h
      exact Or.inl h
  | cons c rest ih =>
      intro d kv h
      rw [show performCopies d (c :: rest) render
            = performCopies (writeFile d (render c.2) c.1.name) rest render from rfl] at h
      rcases ih (writeFile d (render c.2) c.1.name) kv h with h1 | h1
      · rcases mem_writeFile h1 with h2 | h2
        · exact Or.inr ⟨c, List.mem_cons_self c rest, h2⟩
        · exact Or.inl h2
      · obtain ⟨c', hc', hkv⟩ := h1
        exact Or.inr ⟨c', List.mem_cons.mpr (Or.inr hc'), hkv⟩

/-- C7: a rename run against a pre-existing output directory behaves
exactly as against a missing one, because the directory is deleted
recursively and recreated before any copy; consequently every file present
afterwards was written by one of this run's copies, and nothing from the
previous contents survives. -/
theorem rename_output_reset (previous : List (String × String))
    (inputChildren : List Entry) (level : Nat) (blacklist whitelist : List String)
    (startNumber : Nat) (render : Nat → String) :
    renameRun (some previous) inputChildren level blacklist whitelist startNumber render
      = renameRun none inputChildren level blacklist whitelist startNumber render
  ∧ ∀ kv ∈ renameRun (some previous) inputChildren level blacklist whitelist startNumber render,
      ∃ c ∈ rename inputChildren level blacklist whitelist startNumber,
        kv = (render c.2, c.1.name) := by
  refine ⟨rfl, ?_⟩
  intro kv h
  rcases mem_performCopies
      (rename inputChildren level blacklist whitelist startNumber) [] kv h with h1 | h1
  · cases h1
  · exact h1

/-- Witness for C7: one jpg file copied over a stale output directory. -/
theorem rename_output_reset_witness :
    renameRun (some [("stale", "old")]) [Entry.file "a.jpg"] 1 [] [] 1
        (fun n => "img" ++ toString n)
      = renameRun none [Entry.file "a.jpg"] 1 [] [] 1 (fun n => "img" ++ toString n)
  ∧ ∃ c ∈ rename [Entry.file "a.jpg"] 1 [] [] 1,
      (("img1", "a.jpg") : String × String)
        = ((fun n => "img" ++ toString n) c.2, c.1.name) := by
  have h := rename_output_reset [("stale", "old")] [Entry.file "a.jpg"] 1 [] [] 1
    (fun n => "img" ++ toString n)
  refine ⟨h.1, h.2 ("img1", "a.jpg") ?_⟩
  show ("img1", "a.jpg") ∈ renameRun (some [("stale", "old")]) [Entry.file "a.jpg"] 1 [] [] 1
    (fun n => "img" ++ toString n)
  decide

/-- A filesystem entry for the failure model: a directory additionally
carries whether read_dir on it succeeds.  An unreadable directory stands
for a missing or permission-denied one. -/
inductive FsEntry where
  | file (name : String) : FsEntry
  | dir (name : String) (readable : Bool) (children : List FsEntry) : FsEntry

/-- Final path component of the entry. -/
def FsEntry.name : FsEntry → String
  | .file n => n
  | .dir n _ _ => n

/-- Model of Rust is_dir in the failure model. -/
def FsEntry.isDir : FsEntry → Bool
  | .file _ => false
  | .dir _ _ _ => true

/-- Model of ls (src/main.rs lines 44-49): read_dir followed by unwrap; the
panic on an unreadable directory is the error outcome, which no caller
recovers from. -/
def lsF : FsEntry → Except Unit (List FsEntry)
  | .file _ => .error ()
  | .dir _ readable cs => if readable then .ok cs else .error ()

mutual
/-- Conditional expansion of one enumerated child in the failure model:
entering an unreadable directory at positive level is the ls unwrap
panic. -/
def expandEntryF : FsEntry → Nat → Except Unit (List FsEntry)
  | FsEntry.file _, _ => Except.ok []
  | FsEntry.dir _ _ _, 0 => Except.ok []
  | FsEntry.dir _ false _, _ + 1 => Except.error ()
  | FsEntry.dir _ true cs, l + 1 => goF cs l

/-- The ls_recursive loop body over an already-read child list, in the
failure model; any failure in a nested listing aborts the whole
enumeration. -/
def goF : List FsEntry → Nat → Except Unit (List FsEntry)
  | [], _ => Except.ok []
  | e :: rest, level =>
    match expandEntryF e level with
    | Except.error u => Except.error u
    | Except.ok s =>
      match goF rest level with
      | Except.error u => Except.error u
      | Except.ok r => Except.ok (e :: (s ++ r))
end

/-- ls_recursive in the failure model: list the directory (which can
already fail), then run the loop over its children. -/
def lsRecF (d : FsEntry) (level : Nat) : Except Unit (List FsEntry) :=
  match lsF d with
  | Except.error u => Except.error u
  | Except.ok cs => goF cs level

/-- The selection predicate of analyze in the failure model. -/
def analyzeSelectsF (path : FsEntry) : Bool :=
  !path.isDir && (rustExtension path.name.toList).isSome

/-- The file_types map of analyze in the failure model. -/
def fileTypesF (files : List FsEntry) : List (String × Nat) :=
  files.foldl (fun accumulator file => addCount accumulator (getExtensionStr file.name)) []

/-- analyze in the failure model: when the enumeration fails the run
aborts and nothing is printed; otherwise the usual lines are produced. -/
def analyzeF (root : FsEntry) (level : Nat)
    (blacklist whitelist : List String) : Except Unit (List String) :=
  match lsRecF root level with
  | Except.error u => Except.error u
  | Except.ok paths =>
    let files := paths.filter analyzeSelectsF
    Except.ok (analyzeLines files.length (fileTypesF files) blacklist whitelist)

/-- C9: listing an unreadable directory fails with the I/O error; the
recursive enumeration of such a root fails identically at every depth;
analyze on such a root produces no output at all, not a partial one; and an
unreadable directory encountered anywhere during a deeper traversal aborts
the whole enumeration with no partial result. -/
theorem directory_read_failure_aborts (nm : String) (cs : List FsEntry) (level : Nat)
    (blacklist whitelist : List String) :
    lsF (FsEntry.dir nm false cs) = Except.error ()
  ∧ lsRecF (FsEntry.dir nm false cs) level = Except.error ()
  ∧ analyzeF (FsEntry.dir nm false cs) level blacklist whitelist = Except.error ()
  ∧ ∀ (front : List FsEntry) (nm2 : String) (cs2 more : List FsEntry) (l : Nat),
      goF (front ++ FsEntry.dir nm2 false cs2 :: more) (l + 1) = Except.error () := by
  refine ⟨rfl, rfl, rfl, ?_⟩
  intro front nm2 cs2 more l
  induction front with
  | nil => rfl
  | cons e rest ih =>
      rw [List.cons_append,
          show goF (e :: (rest ++ FsEntry.dir nm2 false cs2 :: more)) (l + 1)
            = (match expandEntryF e (l + 1) with
               | Except.error u => Except.error u
               | Except.ok s =>
                 match goF (rest ++ FsEntry.dir nm2 false cs2 :: more) (l + 1) with
                 | Except.error u => Except.error u
                 | Except.ok r => Except.ok (e :: (s ++ r))) from rfl,
          ih]
      cases expandEntryF e (l + 1) <;> rfl

end Tasya
